import Mathlib

/-!
Shallow embedding of `src/file-scrapper-selenium.py` (TfL cycling data
scraper).  Strings are modelled as `List Char`; the regex character classes
`\d` and `[a-zA-Z]` are modelled over the ASCII range; byte strings are
`List Nat`.  The browser automation and HTTP layers are opaque in the
source's own design, so the pure link-filtering loop of
`get_all_filenames` takes the anchor list as input, and `download_file` is
a state transformer over an explicit file-system map together with a log of
the HTTP requests it issues, with the HTTP client supplied as an oracle.
-/

/-- Character list of a string literal. -/
def toL (s : String) : List Char := s.data

/-- ASCII digit test: models the regex class `\d` (codes 48..57 are the
characters 0..9). -/
def isDigitC (c : Char) : Bool := decide (48 ≤ c.toNat) && decide (c.toNat ≤ 57)

/-- ASCII letter test: models the regex class `[a-zA-Z]` (codes 65..90 are
A..Z, codes 97..122 are a..z). -/
def isAlphaC (c : Char) : Bool :=
  (decide (65 ≤ c.toNat) && decide (c.toNat ≤ 90)) ||
    (decide (97 ≤ c.toNat) && decide (c.toNat ≤ 122))

/-- ASCII whitespace test (space, tab, LF, VT, FF, CR): models the
characters removed by Python `str.strip()` on ASCII text. -/
def isSpaceC (c : Char) : Bool :=
  decide (c.toNat = 32) || (decide (9 ≤ c.toNat) && decide (c.toNat ≤ 13))

/-- Numeric value of a digit run: models `int(...)` applied to a string of
ASCII digits (line 90 / line 97 of the source). -/
def digitsToNat (l : List Char) : Nat :=
  l.foldl (fun a c => a * 10 + (c.toNat - 48)) 0

/-- Accumulator loop computing all maximal digit runs of a string, left to
right: models the scan performed by `re.findall(r'\d+', filename)` at
line 93.  `cur` holds the digits of the run currently being read, in
reverse. -/
def digitRunsGo (cur : List Char) : List Char → List (List Char)
  | [] => if cur.isEmpty then [] else [cur.reverse]
  | c :: cs =>
    if isDigitC c then digitRunsGo (c :: cur) cs
    else if cur.isEmpty then digitRunsGo [] cs
    else cur.reverse :: digitRunsGo [] cs

/-- All maximal digit runs of a string, left to right:
`re.findall(r'\d+', filename)` at line 93. -/
def digitRuns (s : List Char) : List (List Char) := digitRunsGo [] s

/-- Whether `re.search(r'^(\d+)[a-zA-Z]', filename)` succeeds (line 88).
The regex matches exactly when the maximal leading digit run is non-empty
and the character right after it is an ASCII letter: a backtracked shorter
digit prefix would put a digit where the letter class must match, so the
greedy maximal run is the only candidate. -/
def leadingMatch (s : List Char) : Bool :=
  !(s.takeWhile isDigitC).isEmpty &&
    (match (s.dropWhile isDigitC).head? with
     | some c => isAlphaC c
     | none => false)

/-- Acceptance test `1 <= num_int <= 1000` for a digit run (line 98). -/
def runInRange (r : List Char) : Bool :=
  decide (1 ≤ digitsToNat r) && decide (digitsToNat r ≤ 1000)

/-- Embeds `extract_file_number` (lines 82-101): first the leading
digits-then-letter pattern, whose captured group is the maximal leading
digit run; otherwise the first digit run anywhere in the name whose value
lies in 1..1000; otherwise `None`. -/
def extract_file_number (filename : List Char) : Option Nat :=
  if leadingMatch filename then
    some (digitsToNat (filename.takeWhile isDigitC))
  else
    match (digitRuns filename).find? runInRange with
    | some r => some (digitsToNat r)
    | none => none

/-- Embeds the record dictionaries built at lines 65-69; `file_number` is
absent (`none`) until `filter_files_by_range` attaches it at line 118. -/
structure LinkRecord where
  filename : List Char
  url : List Char
  text : List Char
  file_number : Option Nat
deriving DecidableEq

/-- Sort key `x.get('file_number', 0)` of line 122. -/
def keyOf (r : LinkRecord) : Nat := r.file_number.getD 0

/-- Comparison underlying the ascending sort at line 122. -/
def byKey (a b : LinkRecord) : Prop := keyOf a ≤ keyOf b

instance : DecidableRel byKey := fun a b => Nat.decLe (keyOf a) (keyOf b)

instance : IsTotal LinkRecord byKey := ⟨fun a b => Nat.le_total (keyOf a) (keyOf b)⟩

instance : IsTrans LinkRecord byKey := ⟨fun _ _ _ h1 h2 => Nat.le_trans h1 h2⟩

/-- One iteration of the loop at lines 115-119.  The guard
`if file_num and start_num <= file_num <= end_num` uses Python truthiness:
both `None` and `0` fail the first conjunct, so a record whose extracted
number is `0` is dropped even when `0` lies inside the range. -/
def surviveStep (start_num end_num : Int) (fi : LinkRecord) : Option LinkRecord :=
  match extract_file_number fi.filename with
  | none => none
  | some n =>
    if n ≠ 0 ∧ start_num ≤ (n : Int) ∧ (n : Int) ≤ end_num then
      some { fi with file_number := some n }
    else none

/-- The records surviving the range filter, in original extraction order
(lines 115-119, before the sort). -/
def survivors (csv_files : List LinkRecord) (start_num end_num : Int) : List LinkRecord :=
  csv_files.filterMap (surviveStep start_num end_num)

/-- Embeds `filter_files_by_range` (lines 103-126).  Python's
`list.sort(key=...)` is a stable ascending sort; `List.insertionSort` over
`byKey` computes the same (unique) stable ascending reordering. -/
def filter_files_by_range (csv_files : List LinkRecord) (start_num end_num : Int) :
    List LinkRecord :=
  List.insertionSort byKey (survivors csv_files start_num end_num)

/-- Outcome of one HTTP GET, as seen by `download_file`: a response with a
status code and a body, or a transport-level failure (the exception caught
at line 156). -/
inductive HttpOutcome where
  | response (status : Nat) (content : List Nat)
  | transportError
deriving DecidableEq

/-- The mutable state `download_file` touches: the local files (path to
bytes, later bindings shadowing earlier ones) and a log of the HTTP GET
requests issued, used to state that skipping performs no network call.
Directory creation (`os.makedirs`, line 135) only affects directories and
is not part of this state. -/
structure DownloadState where
  fs : List (List Char × List Nat)
  requests : List (List Char)
deriving DecidableEq

/-- Look up a path in the file-system map (`os.path.exists` / file read). -/
def fsLookup (fs : List (List Char × List Nat)) (p : List Char) : Option (List Nat) :=
  (fs.find? (fun e => e.1 == p)).map (fun e => e.2)

/-- Models `os.path.join(download_dir, filename)` (line 138) for the
relative filenames this program produces. -/
def pathJoin (dir name : List Char) : List Char := dir ++ '/' :: name

/-- Embeds `download_file` (lines 128-158): skip when the target path
already exists (returning `True`, line 141); otherwise GET the record's
URL, write the body and return `True` on status 200, and return `False` on
any other status or on a transport error. -/
def download_file (http : List Char → HttpOutcome) (fi : LinkRecord)
    (download_dir : List Char) (st : DownloadState) : Bool × DownloadState :=
  let file_path := pathJoin download_dir fi.filename
  match fsLookup st.fs file_path with
  | some _ => (true, st)
  | none =>
    let st1 : DownloadState := { st with requests := st.requests ++ [fi.url] }
    match http fi.url with
    | .response status content =>
      if status = 200 then (true, { st1 with fs := (file_path, content) :: st1.fs })
      else (false, st1)
    | .transportError => (false, st1)

/-- An anchor element as the scraper sees it: `get_attribute("href")` may
be null (`none`), and the visible text. -/
structure Anchor where
  href : Option (List Char)
  text : List Char
deriving DecidableEq

/-- Models Python `str.strip()` on the anchor text (line 61), ASCII
whitespace. -/
def stripText (l : List Char) : List Char :=
  ((l.dropWhile isSpaceC).reverse.dropWhile isSpaceC).reverse

/-- Case-sensitive test `href.endswith(".csv")` of line 63. -/
def csvSuffix (h : List Char) : Bool := (toL ".csv").isSuffixOf h

/-- Models Python `href.split("/")` (single-character separator, no limit):
`splitSlash [] = [[]]`, a separator opens a new empty segment, any other
character is prepended to the current first segment. -/
def splitSlash : List Char → List (List Char)
  | [] => [[]]
  | c :: cs =>
    match splitSlash cs with
    | [] => [[]]
    | s :: ss => if c == '/' then [] :: s :: ss else (c :: s) :: ss

/-- Models `href.split("/")[-1]` (line 64): the last segment of the split
(the split list is never empty, so the default is never used). -/
def lastSegment (h : List Char) : List Char := ((splitSlash h).getLast?).getD h

/-- One iteration of the anchor loop at lines 58-69: keep the anchor when
its href is present, truthy (non-empty) and ends with ".csv", and build
the record with the final path segment of the href as filename. -/
def anchorStep (link : Anchor) : Option LinkRecord :=
  match link.href with
  | none => none
  | some href =>
    if !href.isEmpty && csvSuffix href then
      some { filename := lastSegment href, url := href,
             text := stripText link.text, file_number := none }
    else none

/-- Embeds the pure link-filtering loop of `get_all_filenames`
(lines 58-69).  The browser interaction supplying `links` is opaque. -/
def get_all_filenames (links : List Anchor) : List LinkRecord :=
  links.filterMap anchorStep

/-- Keep-condition of the Link Extractor in the spec's words: href present,
non-empty, and ending with ".csv" under a case-sensitive exact suffix
match. -/
def specKeep (a : Anchor) : Bool :=
  match a.href with
  | none => false
  | some h => !h.isEmpty && csvSuffix h

/-- Record built from a kept anchor, in the spec's words: filename is the
final path segment of the href. -/
def specRecord (a : Anchor) : LinkRecord :=
  { filename := lastSegment (a.href.getD []), url := a.href.getD [],
    text := stripText a.text, file_number := none }

/-- Seg is the text after the last slash of h: it contains no slash, and it
is either the whole of h or preceded in h by a slash. -/
def isFinalSegment (h seg : List Char) : Prop :=
  ('/' ∉ seg) ∧ (h = seg ∨ ∃ pre, h = pre ++ '/' :: seg)

/-- Concrete record used by the counterexample to the zero-number claim:
its filename starts with the digit run "0" followed by a letter. -/
def zeroRec : LinkRecord :=
  { filename := toL "0a.csv", url := toL "https://x/0a.csv", text := [], file_number := none }

/-- Two concrete records with the same extracted number 246, used to refute
strict ascent of the final order. -/
def dup246a : LinkRecord :=
  { filename := toL "246a-sep.csv", url := toL "https://x/246a-sep.csv",
    text := [], file_number := none }

/-- Second record extracting to 246, listed after `dup246a`. -/
def dup246b : LinkRecord :=
  { filename := toL "246b-oct.csv", url := toL "https://x/246b-oct.csv",
    text := [], file_number := none }

/-- Concrete record for the download theorems. -/
def wRec : LinkRecord :=
  { filename := toL "246a-sep.csv", url := toL "https://x/246a-sep.csv",
    text := [], file_number := some 246 }

/-- Concrete download directory. -/
def wDir : List Char := toL "cycling_data"

/-- Concrete bytes of a pre-existing file. -/
def wBytes : List Nat := [1, 2, 3]

/-- State in which the target of `wRec` already exists. -/
def wStExists : DownloadState :=
  { fs := [(pathJoin wDir wRec.filename, wBytes)], requests := [] }

/-- State with an empty file system. -/
def wStEmpty : DownloadState := { fs := [], requests := [] }

/-- HTTP oracle that answers every request with status 200 and body [9]. -/
def wHttp200 : List Char → HttpOutcome := fun _ => .response 200 [9]

/-- Strict ascent of the final order, as the spec's ordering invariant
words it: each element's key is greater than its predecessor's. -/
def strictlyAscending (l : List LinkRecord) : Prop :=
  List.Pairwise (fun a b => keyOf a < keyOf b) l

example : extract_file_number (toL "246a-journeys.csv") = some 246 := by decide
example : extract_file_number (toL "data-2024-99.csv") = some 99 := by decide
example : extract_file_number (toL "report-1500.csv") = none := by decide
example : extract_file_number (toL "0a.csv") = some 0 := by decide
example : digitRuns (toL "data-2024-99.csv") = [toL "2024", toL "99"] := by decide
example : lastSegment (toL "https://x/a/b.csv") = toL "b.csv" := by decide

theorem takeWhile_append_all {α : Type} (p : α → Bool) :
    ∀ (d ys : List α), (∀ x ∈ d, p x = true) →
      (d ++ ys).takeWhile p = d ++ ys.takeWhile p
  | [], _, _ => rfl
  | a :: d, ys, h => by
    have ha : p a = true := h a (List.mem_cons_self a d)
    simp only [List.cons_append, List.takeWhile_cons, ha, if_true]
    rw [takeWhile_append_all p d ys (fun x hx => h x (List.mem_cons_of_mem a hx))]

theorem dropWhile_append_all {α : Type} (p : α → Bool) :
    ∀ (d ys : List α), (∀ x ∈ d, p x = true) →
      (d ++ ys).dropWhile p = ys.dropWhile p
  | [], _, _ => rfl
  | a :: d, ys, h => by
    have ha : p a = true := h a (List.mem_cons_self a d)
    simp only [List.cons_append, List.dropWhile_cons, ha, if_true]
    exact dropWhile_append_all p d ys (fun x hx => h x (List.mem_cons_of_mem a hx))

theorem find?_append_first {α : Type} (p : α → Bool) :
    ∀ (pre : List α) (a : α) (post : List α), (∀ x ∈ pre, p x = false) →
      p a = true → (pre ++ a :: post).find? p = some a
  | [], a, post, _, ha => by simp [List.find?_cons, ha]
  | x :: pre, a, post, h, ha => by
    have hx : p x = false := h x (List.mem_cons_self x pre)
    simp only [List.cons_append, List.find?_cons, hx]
    exact find?_append_first p pre a post (fun y hy => h y (List.mem_cons_of_mem x hy)) ha

theorem filterMap_id_of {α : Type} (f : α → Option α) :
    ∀ (l : List α), (∀ x ∈ l, f x = some x) → l.filterMap f = l
  | [], _ => rfl
  | x :: l, h => by
    simp only [List.filterMap_cons, h x (List.mem_cons_self x l)]
    rw [filterMap_id_of f l (fun y hy => h y (List.mem_cons_of_mem x hy))]

theorem isAlphaC_not_digit {c : Char} (h : isAlphaC c = true) : isDigitC c = false := by
  simp only [isAlphaC, Bool.or_eq_true, Bool.and_eq_true, decide_eq_true_eq] at h
  simp only [isDigitC, Bool.and_eq_false_iff, decide_eq_false_iff_not]
  omega

theorem leadingMatch_of_append (d : List Char) (c : Char) (rest : List Char)
    (hd : d ≠ []) (hdig : ∀ x ∈ d, isDigitC x = true) (hc : isAlphaC c = true) :
    leadingMatch (d ++ c :: rest) = true ∧
      (d ++ c :: rest).takeWhile isDigitC = d := by
  have hcd : isDigitC c = false := isAlphaC_not_digit hc
  have ht : (d ++ c :: rest).takeWhile isDigitC = d := by
    rw [takeWhile_append_all isDigitC d (c :: rest) hdig]
    simp [List.takeWhile_cons, hcd]
  have hdrop : (d ++ c :: rest).dropWhile isDigitC = c :: rest := by
    rw [dropWhile_append_all isDigitC d (c :: rest) hdig]
    simp [List.dropWhile_cons, hcd]
  refine ⟨?_, ht⟩
  rw [leadingMatch, ht, hdrop]
  simp [hd, hc]

/-- C1: for every filename that begins with one or more digits immediately
followed by an ASCII letter, `extract_file_number` returns the integer
value of that leading digit run (e.g. "246a-journeys.csv" yields 246). -/
theorem extract_file_number_leading (d : List Char) (c : Char) (rest : List Char)
    (hd : d ≠ []) (hdig : ∀ x ∈ d, isDigitC x = true) (hc : isAlphaC c = true) :
    extract_file_number (d ++ c :: rest) = some (digitsToNat d) := by
  obtain ⟨hlm, ht⟩ := leadingMatch_of_append d c rest hd hdig hc
  rw [extract_file_number, if_pos (by rw [hlm]), ht]

/-- Witness for C1 at the spec's example "246a-journeys.csv". -/
theorem extract_file_number_leading_witness :
    extract_file_number (toL "246a-journeys.csv") = some 246 := by
  have e : toL "246a-journeys.csv" = toL "246" ++ 'a' :: toL "-journeys.csv" := by decide
  rw [e, extract_file_number_leading (toL "246") 'a' (toL "-journeys.csv")
    (by decide) (by decide) (by decide)]
  decide

/-- C10: the leading digits-then-letter rule applies with no numeric bound:
even when the leading run's value exceeds 1000 the function returns it and
never falls through to the 1..1000 scan (the first regex matches, so the
result ignores every other digit run of the name). -/
theorem extract_file_number_leading_unbounded (d : List Char) (c : Char) (rest : List Char)
    (hd : d ≠ []) (hdig : ∀ x ∈ d, isDigitC x = true) (hc : isAlphaC c = true)
    (_hbig : 1000 < digitsToNat d) :
    leadingMatch (d ++ c :: rest) = true ∧
      extract_file_number (d ++ c :: rest) = some (digitsToNat d) := by
  obtain ⟨hlm, ht⟩ := leadingMatch_of_append d c rest hd hdig hc
  exact ⟨hlm, by rw [extract_file_number, if_pos (by rw [hlm]), ht]⟩

/-- Witness for C10: "2024a-99.csv" yields 2024 although 2024 is outside
1..1000 and the later run "99" would pass the range scan. -/
theorem extract_file_number_leading_unbounded_witness :
    extract_file_number (toL "2024a-99.csv") = some 2024 ∧ runInRange (toL "99") = true := by
  constructor
  · have e : toL "2024a-99.csv" = toL "2024" ++ 'a' :: toL "-99.csv" := by decide
    rw [e, (extract_file_number_leading_unbounded (toL "2024") 'a' (toL "-99.csv")
      (by decide) (by decide) (by decide) (by decide)).2]
    decide
  · decide

/-- C2: when the leading digits-then-letter pattern does not match,
`extract_file_number` returns the value of the leftmost maximal digit run
lying in 1..1000, and nothing when no run qualifies. -/
theorem extract_file_number_scan (s : List Char) (hnm : leadingMatch s = false) :
    (extract_file_number s = none ↔ ∀ r ∈ digitRuns s, runInRange r = false) ∧
    (∀ pre run post, digitRuns s = pre ++ run :: post →
      (∀ r ∈ pre, runInRange r = false) → runInRange run = true →
      extract_file_number s = some (digitsToNat run)) := by
  constructor
  · rw [extract_file_number, if_neg (by simp [hnm])]
    cases hf : (digitRuns s).find? runInRange with
    | some r =>
      have hr : runInRange r = true := List.find?_some hf
      have hmem : r ∈ digitRuns s := List.mem_of_find?_eq_some hf
      simp only [reduceCtorEq, false_iff, not_forall]
      exact ⟨r, hmem, by simp [hr]⟩
    | none =>
      simp only [true_iff]
      rw [List.find?_eq_none] at hf
      exact fun r hr => by
        have := hf r hr
        simp only [Bool.not_eq_true] at this
        exact this
  · intro pre run post hsplit hpre hrun
    rw [extract_file_number, if_neg (by simp [hnm]), hsplit,
      find?_append_first runInRange pre run post hpre hrun]

/-- Witness for C2 at the spec's example "report-1500.csv": its only digit
run 1500 is out of range, so the result is absent. -/
theorem extract_file_number_scan_witness :
    extract_file_number (toL "report-1500.csv") = none :=
  (extract_file_number_scan (toL "report-1500.csv") (by decide)).1.mpr (by decide)

theorem surviveStep_eq_some {s e : Int} {r r2 : LinkRecord}
    (h : surviveStep s e r = some r2) :
    ∃ n : Nat, extract_file_number r.filename = some n ∧ n ≠ 0 ∧
      s ≤ (n : Int) ∧ (n : Int) ≤ e ∧ r2 = { r with file_number := some n } := by
  rw [surviveStep] at h
  cases hx : extract_file_number r.filename with
  | none => simp [hx] at h
  | some n =>
    simp only [hx] at h
    by_cases hcond : n ≠ 0 ∧ s ≤ (n : Int) ∧ (n : Int) ≤ e
    · rw [if_pos hcond] at h
      exact ⟨n, rfl, hcond.1, hcond.2.1, hcond.2.2, (Option.some.inj h).symm⟩
    · rw [if_neg hcond] at h; cases h

theorem surviveStep_of (s e : Int) (r : LinkRecord) (n : Nat)
    (hx : extract_file_number r.filename = some n) (h0 : n ≠ 0)
    (hs : s ≤ (n : Int)) (he : (n : Int) ≤ e) :
    surviveStep s e r = some { r with file_number := some n } := by
  simp only [surviveStep, hx]
  rw [if_pos ⟨h0, hs, he⟩]

/-- C3 (amended): a record survives `filter_files_by_range` exactly when
its extracted number is present, NONZERO, and inside the inclusive range;
the surviving record carries that number.  (The Python guard
`if file_num and ...` also drops a record whose extracted number is 0,
which the original claim does not allow for.) -/
theorem mem_filter_files_by_range (records : List LinkRecord) (s e : Int)
    (r2 : LinkRecord) :
    r2 ∈ filter_files_by_range records s e ↔
      ∃ r ∈ records, ∃ n : Nat, extract_file_number r.filename = some n ∧ n ≠ 0 ∧
        s ≤ (n : Int) ∧ (n : Int) ≤ e ∧ r2 = { r with file_number := some n } := by
  rw [filter_files_by_range, (List.perm_insertionSort byKey _).mem_iff,
    survivors, List.mem_filterMap]
  constructor
  · rintro ⟨r, hr, hstep⟩
    obtain ⟨n, hx, h0, hs, he, hr2⟩ := surviveStep_eq_some hstep
    exact ⟨r, hr, n, hx, h0, hs, he, hr2⟩
  · rintro ⟨r, hr, n, hx, h0, hs, he, rfl⟩
    exact ⟨r, hr, surviveStep_of s e r n hx h0 hs he⟩

/-- Counterexample to C3 as stated: "0a.csv" extracts to the number 0,
which lies inside the range 0..5, yet the record is discarded. -/
theorem filter_files_by_range_zero_counterexample :
    extract_file_number (toL "0a.csv") = some 0 ∧
      (0 : Int) ≤ ((0 : Nat) : Int) ∧ ((0 : Nat) : Int) ≤ 5 ∧ (0 : Int) ≤ 5 ∧
      filter_files_by_range [zeroRec] 0 5 = [] := by decide

/-- C4 (amended): the final download order is ascending by the attached
key, non-strictly: duplicate numbers may occur, each element's key is at
least its predecessor's. -/
theorem filter_files_by_range_sorted_le (records : List LinkRecord) (s e : Int) :
    List.Pairwise byKey (filter_files_by_range records s e) :=
  List.sorted_insertionSort byKey (survivors records s e)

/-- Counterexample to C4 as stated: two records both extracting to 246
survive the range 246..386 and the resulting order is not strictly
ascending. -/
theorem filter_files_by_range_strict_counterexample :
    ¬ strictlyAscending (filter_files_by_range [dup246a, dup246b] 246 386) := by
  unfold strictlyAscending
  decide

theorem filter_orderedInsert (k : Nat) (a : LinkRecord) :
    ∀ l : List LinkRecord,
      (List.orderedInsert byKey a l).filter (fun r => keyOf r == k) =
        if keyOf a = k then a :: l.filter (fun r => keyOf r == k)
        else l.filter (fun r => keyOf r == k)
  | [] => by
    by_cases hk : keyOf a = k <;>
      simp [List.orderedInsert, List.filter_cons, beq_iff_eq, hk]
  | b :: l => by
    by_cases hab : byKey a b
    · rw [List.orderedInsert_of_le byKey l hab]
      by_cases hk : keyOf a = k <;> simp [List.filter_cons, beq_iff_eq, hk]
    · have hba : keyOf b < keyOf a := Nat.lt_of_not_le hab
      have hoi : List.orderedInsert byKey a (b :: l) = b :: List.orderedInsert byKey a l := by
        simp [List.orderedInsert, hab]
      rw [hoi]
      by_cases hk : keyOf a = k
      · have hbk : ¬ (keyOf b = k) := by omega
        simp [List.filter_cons, beq_iff_eq, hbk, filter_orderedInsert k a l, hk]
      · by_cases hbk : keyOf b = k <;>
          simp [List.filter_cons, beq_iff_eq, hbk, filter_orderedInsert k a l, hk]

theorem filter_insertionSort (k : Nat) :
    ∀ l : List LinkRecord,
      (List.insertionSort byKey l).filter (fun r => keyOf r == k) =
        l.filter (fun r => keyOf r == k)
  | [] => rfl
  | a :: l => by
    have : List.insertionSort byKey (a :: l) =
        List.orderedInsert byKey a (List.insertionSort byKey l) := rfl
    rw [this, filter_orderedInsert k a (List.insertionSort byKey l),
      filter_insertionSort k l]
    by_cases hk : keyOf a = k <;> simp [List.filter_cons, beq_iff_eq, hk]

/-- C7: the output of `filter_files_by_range` is (non-strictly) ascending
by the attached key; it is a stable reordering of the surviving records
(elements of equal key keep their original extraction order, stated as:
for each key, filtering the output by that key gives exactly the survivors
with that key, in their original order); and every element's number lies
inside the inclusive range. -/
theorem filter_files_by_range_sorted_stable_inrange (records : List LinkRecord)
    (s e : Int) :
    List.Pairwise byKey (filter_files_by_range records s e) ∧
    (∀ k : Nat, (filter_files_by_range records s e).filter (fun r => keyOf r == k) =
      (survivors records s e).filter (fun r => keyOf r == k)) ∧
    (∀ r2 ∈ filter_files_by_range records s e,
      ∃ n : Nat, r2.file_number = some n ∧ s ≤ (n : Int) ∧ (n : Int) ≤ e) := by
  refine ⟨List.sorted_insertionSort byKey (survivors records s e),
    fun k => filter_insertionSort k (survivors records s e), ?_⟩
  intro r2 hr2
  rw [filter_files_by_range, (List.perm_insertionSort byKey _).mem_iff] at hr2
  obtain ⟨r, _, hstep⟩ := List.mem_filterMap.mp hr2
  obtain ⟨n, _, _, hs, he, hr2eq⟩ := surviveStep_eq_some hstep
  exact ⟨n, by rw [hr2eq], hs, he⟩

/-- C8: `filter_files_by_range` is idempotent: applied to its own output
with the same range it returns that output unchanged. -/
theorem filter_files_by_range_idempotent (records : List LinkRecord) (s e : Int) :
    filter_files_by_range (filter_files_by_range records s e) s e =
      filter_files_by_range records s e := by
  have hfix : ∀ r2 ∈ filter_files_by_range records s e, surviveStep s e r2 = some r2 := by
    intro r2 hr2
    rw [filter_files_by_range, (List.perm_insertionSort byKey _).mem_iff] at hr2
    obtain ⟨r, _, hstep⟩ := List.mem_filterMap.mp hr2
    obtain ⟨n, hx, h0, hs, he, hr2eq⟩ := surviveStep_eq_some hstep
    subst hr2eq
    have hx2 : extract_file_number ({ r with file_number := some n } : LinkRecord).filename
        = some n := hx
    exact surviveStep_of s e _ n hx2 h0 hs he
  have h1 : survivors (filter_files_by_range records s e) s e =
      filter_files_by_range records s e :=
    filterMap_id_of (surviveStep s e) (filter_files_by_range records s e) hfix
  rw [filter_files_by_range, h1]
  exact (List.sorted_insertionSort byKey (survivors records s e)).insertionSort_eq

/-- C5: when a file already exists at the target path, `download_file`
returns the code's skip outcome `true`, leaves the whole state unchanged
(in particular it issues no HTTP request) and the existing file's bytes
are untouched. -/
theorem download_file_skip (http : List Char → HttpOutcome) (fi : LinkRecord)
    (dir : List Char) (st : DownloadState) (b : List Nat)
    (hex : fsLookup st.fs (pathJoin dir fi.filename) = some b) :
    download_file http fi dir st = (true, st) ∧
      (download_file http fi dir st).2.requests = st.requests ∧
      fsLookup (download_file http fi dir st).2.fs (pathJoin dir fi.filename) = some b := by
  have h1 : download_file http fi dir st = (true, st) := by
    rw [download_file]
    simp only [hex]
  exact ⟨h1, by rw [h1], by rw [h1]; exact hex⟩

/-- Witness for C5: a concrete pre-existing file is skipped untouched even
though the HTTP oracle would have answered. -/
theorem download_file_skip_witness :
    download_file wHttp200 wRec wDir wStExists = (true, wStExists) ∧
      (download_file wHttp200 wRec wDir wStExists).2.requests = wStExists.requests ∧
      fsLookup (download_file wHttp200 wRec wDir wStExists).2.fs
        (pathJoin wDir wRec.filename) = some wBytes :=
  download_file_skip wHttp200 wRec wDir wStExists wBytes (by decide)

/-- C6 (amended): `download_file` returns only two distinct outcomes, the
booleans of the source: `true` exactly when the target already exists (a
skip) or the GET answers with status 200 (a fresh download), and `false`
otherwise; a skip is therefore not distinguishable from a success by the
caller. -/
theorem download_file_true_iff (http : List Char → HttpOutcome) (fi : LinkRecord)
    (dir : List Char) (st : DownloadState) :
    (download_file http fi dir st).1 = true ↔
      ((fsLookup st.fs (pathJoin dir fi.filename)).isSome ∨
        ∃ c, http fi.url = HttpOutcome.response 200 c) := by
  rw [download_file]
  cases hex : fsLookup st.fs (pathJoin dir fi.filename) with
  | some b => simp [hex]
  | none =>
    cases hh : http fi.url with
    | response status content =>
      by_cases h200 : status = 200
      · subst h200
        simp [hex, hh]
      · simp [hex, hh, h200]
    | transportError => simp [hex, hh]

/-- Counterexample to C6 as stated: a call that skips a pre-existing file
and a call that freshly downloads (it issues the GET) return the very same
outcome `true`, so the caller cannot distinguish Skipped from Success. -/
theorem download_file_outcomes_counterexample :
    (download_file wHttp200 wRec wDir wStExists).1 =
        (download_file wHttp200 wRec wDir wStEmpty).1 ∧
      (download_file wHttp200 wRec wDir wStExists).2.requests = [] ∧
      (download_file wHttp200 wRec wDir wStEmpty).2.requests = [wRec.url] := by
  decide

theorem splitSlash_ne_nil : ∀ h : List Char, splitSlash h ≠ []
  | [] => by simp [splitSlash]
  | c :: cs => by
    cases hs : splitSlash cs with
    | nil => simp [splitSlash, hs]
    | cons s ss =>
      simp only [splitSlash, hs]
      by_cases hc : (c == '/') = true <;> simp [hc]

theorem splitSlash_of_no_slash : ∀ h : List Char, '/' ∉ h → splitSlash h = [h]
  | [], _ => rfl
  | c :: cs, hns => by
    have hc : (c == '/') = false := by
      simp only [beq_eq_false_iff_ne, ne_eq]
      intro e; subst e; exact hns (List.mem_cons_self _ cs)
    have ih := splitSlash_of_no_slash cs (fun hm => hns (List.mem_cons_of_mem c hm))
    simp [splitSlash, ih, hc]

theorem splitSlash_singleton : ∀ (h s : List Char), splitSlash h = [s] → h = s
  | [], s, hs => by
    simp only [splitSlash] at hs
    exact (List.cons.inj hs).1.symm ▸ rfl
  | c :: cs, s, hs => by
    cases h2 : splitSlash cs with
    | nil => exact absurd h2 (splitSlash_ne_nil cs)
    | cons t ts =>
      simp only [splitSlash, h2] at hs
      by_cases hc : (c == '/') = true
      · rw [if_pos hc] at hs
        exact absurd (List.cons.inj hs).2 (List.cons_ne_nil t ts)
      · rw [if_neg hc] at hs
        obtain ⟨h3, h4⟩ := List.cons.inj hs
        have hcs : cs = t := splitSlash_singleton cs t (by rw [h2, h4])
        rw [← h3, hcs]

theorem getLast?_getD_eq {α : Type} :
    ∀ (l : List α), l ≠ [] → ∀ d1 d2 : α, l.getLast?.getD d1 = l.getLast?.getD d2
  | [], h, _, _ => absurd rfl h
  | [_], _, _, _ => by rw [List.getLast?_singleton]; rfl
  | a :: b :: l, _, d1, d2 => by
    rw [List.getLast?_cons_cons]
    exact getLast?_getD_eq (b :: l) (List.cons_ne_nil b l) d1 d2

theorem lastSegment_final : ∀ h : List Char, isFinalSegment h (lastSegment h)
  | [] => ⟨by simp [lastSegment, splitSlash], Or.inl (by simp [lastSegment, splitSlash])⟩
  | c :: cs => by
    have ih := lastSegment_final cs
    cases h2 : splitSlash cs with
    | nil => exact absurd h2 (splitSlash_ne_nil cs)
    | cons t ts =>
      by_cases hc : c = '/'
      · subst hc
        have hcb : (('/' : Char) == '/') = true := by decide
        have hl : lastSegment ('/' :: cs) = lastSegment cs := by
          simp only [lastSegment, splitSlash, h2, hcb, if_true, List.getLast?_cons_cons]
          exact getLast?_getD_eq (t :: ts) (List.cons_ne_nil t ts) _ _
        rw [hl]
        obtain ⟨hns, hcase⟩ := ih
        refine ⟨hns, Or.inr ?_⟩
        cases hcase with
        | inl he =>
          refine ⟨[], ?_⟩
          rw [List.nil_append]
          exact congrArg (List.cons '/') he
        | inr hpre =>
          obtain ⟨pre, hp⟩ := hpre
          refine ⟨'/' :: pre, ?_⟩
          rw [List.cons_append]
          exact congrArg (List.cons '/') hp
      · have hcb : (c == '/') = false := by
          simp only [beq_eq_false_iff_ne, ne_eq]; exact hc
        cases hts : ts with
        | nil =>
          have hct : cs = t := splitSlash_singleton cs t (by rw [h2, hts])
          have hl : lastSegment (c :: cs) = c :: t := by
            simp [lastSegment, splitSlash, h2, hts, hcb]
          have hlt : lastSegment cs = t := by
            simp [lastSegment, h2, hts]
          rw [hl]
          have hnst : '/' ∉ t := hlt ▸ ih.1
          refine ⟨?_, Or.inl (by rw [hct])⟩
          intro hm
          rcases List.mem_cons.mp hm with he | hmt
          · exact hc he.symm
          · exact hnst hmt
        | cons t2 ts2 =>
          have hl : lastSegment (c :: cs) = lastSegment cs := by
            simp only [lastSegment, splitSlash, h2, hts, hcb, Bool.false_eq_true,
              if_false, List.getLast?_cons_cons]
            exact getLast?_getD_eq (t2 :: ts2) (List.cons_ne_nil t2 ts2) _ _
          rw [hl]
          obtain ⟨hns, hcase⟩ := ih
          refine ⟨hns, Or.inr ?_⟩
          cases hcase with
          | inl he =>
            exfalso
            have hnos : '/' ∉ cs := he ▸ hns
            have hone := splitSlash_of_no_slash cs hnos
            rw [h2, hts] at hone
            exact absurd (List.cons.inj hone).2 (List.cons_ne_nil t2 ts2)
          | inr hpre =>
            obtain ⟨pre, hp⟩ := hpre
            refine ⟨c :: pre, ?_⟩
            rw [List.cons_append]
            exact congrArg (List.cons c) hp

theorem get_all_filenames_eq : ∀ links : List Anchor,
    get_all_filenames links = (links.filter specKeep).map specRecord
  | [] => rfl
  | a :: links => by
    have ih := get_all_filenames_eq links
    cases ha : a.href with
    | none =>
      have h1 : anchorStep a = none := by simp [anchorStep, ha]
      have h2 : specKeep a = false := by simp [specKeep, ha]
      simp only [get_all_filenames, List.filterMap_cons, h1, List.filter_cons, h2,
        Bool.false_eq_true, if_false]
      exact ih
    | some href =>
      by_cases hk : (!href.isEmpty && csvSuffix href) = true
      · have h1 : anchorStep a =
            some (LinkRecord.mk (lastSegment href) href (stripText a.text) none) := by
          simp [anchorStep, ha, hk]
        have h2 : specKeep a = true := by simp [specKeep, ha, hk]
        have h3 : specRecord a =
            LinkRecord.mk (lastSegment href) href (stripText a.text) none := by
          simp [specRecord, ha]
        simp only [get_all_filenames, List.filterMap_cons, h1, List.filter_cons, h2,
          if_true, List.map_cons, h3]
        exact congrArg _ ih
      · have h1 : anchorStep a = none := by
          simp [anchorStep, ha, hk]
        have h2 : specKeep a = false := by
          simp only [specKeep, ha]
          simpa using hk
        simp only [get_all_filenames, List.filterMap_cons, h1, List.filter_cons, h2,
          Bool.false_eq_true, if_false]
        exact ih

/-- C9: the link extractor keeps exactly the anchors whose href is present,
non-empty and case-sensitively suffixed ".csv" (an href ending in ".CSV"
is not kept), the record's filename is the final path segment of the href
(the text after the last slash), and no anchors yield no records. -/
theorem get_all_filenames_spec :
    (get_all_filenames [] = []) ∧
    (∀ links : List Anchor,
      get_all_filenames links = (links.filter specKeep).map specRecord) ∧
    (∀ h : List Char, isFinalSegment h (lastSegment h)) ∧
    specKeep { href := some (toL "https://x/FILE.CSV"), text := [] } = false ∧
    get_all_filenames [{ href := some (toL "https://x/FILE.CSV"), text := [] }] = [] :=
  ⟨rfl, get_all_filenames_eq, lastSegment_final, by decide, by decide⟩
